import Mathlib

/-!
# Verification of `hp_character_appearance.py`

A shallow embedding of the script's data flow.  Python strings are `List Char`,
the long-format pandas DataFrame is a `List FrequencyRecord`, a missing
(`None`/`NaN`) frequency is `none`, and the file system is a partial map from
paths to file contents.  The pandas operations the script uses
(`groupby(sort=True)`, `agg`, `nlargest(keep='first')`,
`sort_values(ascending=False)`, boolean-mask filtering, `dropna`) are embedded
with their documented semantics on this list representation.
-/

/-- Python strings (`str`) as lists of characters. -/
abbrev Word := List Char

/-- One row of the long-format DataFrame built by `prepare_plot_data`:
columns `'Novel'`, `'Character'`, `'Frequency'`.  The frequency is `none`
where the script stores Python `None` (pandas missing value `NaN`). -/
structure FrequencyRecord where
  novel : Word
  character : Word
  frequency : Option Nat
deriving DecidableEq

/-- `normalize_word`: `re.sub(r"'s$", '', word)` removes one literal trailing
`'s` — the regex is case-sensitive, so only an apostrophe followed by a
lowercase `s` matches — and then `.lower()` lowercases the result. -/
def normalize_word (word : Word) : Word :=
  let stripped : Word :=
    match word.reverse with
    | 's' :: '\'' :: rest => rest.reverse
    | _ => word
  stripped.map Char.toLower

/-- Python `str.isalpha`: non-empty and every character alphabetic.  The
corpus is ASCII, where `Char.isAlpha` coincides with Python's test. -/
def pyIsAlpha (w : Word) : Bool := !w.isEmpty && w.all Char.isAlpha

/-- Helper for the tokenizer: emit the alphabetic run collected so far
(accumulated in reverse), if any. -/
def flushTok (acc : List Char) : List Word :=
  if acc.isEmpty then [] else [acc.reverse]

/-- Modelled from the spec: `nltk.tokenize.word_tokenize` is an external
library call, not part of this repository's sources.  The spec describes it as
"standard word-boundary tokenization (handles punctuation separation)":
maximal alphabetic runs become word tokens, the possessive clitic `'s` is
split off as a token of its own (NLTK's treebank behaviour, presupposed by the
spec's possessive discussion), and every other non-whitespace character is a
one-character punctuation token.  The first argument is fuel bounding the
recursion; `word_tokenize` supplies the input length, which suffices because
every step consumes at least one character. -/
def tokenizeFuel : Nat → List Char → List Char → List Word
  | 0, acc, _ => flushTok acc
  | _ + 1, acc, [] => flushTok acc
  | fuel + 1, acc, c :: cs =>
    if c.isAlpha then tokenizeFuel fuel (c :: acc) cs
    else if c.isWhitespace then flushTok acc ++ tokenizeFuel fuel [] cs
    else if c = '\'' then
      match cs with
      | 's' :: cs' => flushTok acc ++ ['\'', 's'] :: tokenizeFuel fuel [] cs'
      | _ => flushTok acc ++ [c] :: tokenizeFuel fuel [] cs
    else flushTok acc ++ [c] :: tokenizeFuel fuel [] cs

/-- Modelled from the spec: see `tokenizeFuel`. -/
def word_tokenize (text : List Char) : List Word :=
  tokenizeFuel text.length [] text

/-- `count_word_frequencies`: tokenize, keep the alphabetic tokens, normalize
them, count, and look each target word up with default 0.  The Python dict
comprehension `{word: word_counts.get(word, 0) for word in target_words}` is
embedded as an association list in target order. -/
def count_word_frequencies (text : List Char) (target_words : List Word) :
    List (Word × Nat) :=
  let words := word_tokenize text
  let normalized_words := (words.filter pyIsAlpha).map normalize_word
  target_words.map (fun word => (word, normalized_words.count word))

/-- The file system seen by the script: `fs path = some text` when the file
opens and reads successfully, `none` when `open`/`read` raises. -/
abbrev FileSystem := Word → Option (List Char)

/-- `process_novel`: the word counts of the novel, or the empty dict `{}`
when reading the file raises. -/
def process_novel (fs : FileSystem) (file_path : Word) (target_words : List Word) :
    List (Word × Nat) :=
  match fs file_path with
  | none => []
  | some text => count_word_frequencies text target_words

/-- The diagnostic `print(f"Error reading the file {file_path}: {e}")` of
`process_novel`, modelled as the list of failing paths it reports. -/
def process_novel_logs (fs : FileSystem) (file_path : Word) : List Word :=
  match fs file_path with
  | none => [file_path]
  | some _ => []

/-- Python `str.capitalize()`: first character uppercased, the rest
lowercased. -/
def capitalize : Word → Word
  | [] => []
  | c :: cs => c.toUpper :: cs.map Char.toLower

/-- Body of the `for path, title in zip(...)` loop of `prepare_plot_data`:
one row per vocabulary word for one `(path, title)` pair, with `None` stored
when the looked-up count is not `> 0`. -/
def novel_rows (fs : FileSystem) (pt : Word × Word) (target_words : List Word) :
    List FrequencyRecord :=
  let frequencies := process_novel fs pt.1 target_words
  target_words.map (fun character =>
    let freq := (frequencies.lookup character).getD 0
    { novel := pt.2, character := capitalize character,
      frequency := if freq > 0 then some freq else none })

/-- `prepare_plot_data`: rows for every `(path, title)` pair of
`zip(novel_paths, novel_titles)` in order, vocabulary inner. -/
def prepare_plot_data (fs : FileSystem) (novel_paths novel_titles : List Word)
    (target_words : List Word) : List FrequencyRecord :=
  (novel_paths.zip novel_titles).flatMap (fun pt => novel_rows fs pt target_words)

/-- `df.dropna(subset=['Frequency'])` in `plot_character_frequencies`: the
rows the renderer actually plots. -/
def dropna_frequency (df : List FrequencyRecord) : List FrequencyRecord :=
  df.filter (fun r => r.frequency.isSome)

/-- The group keys of `df.groupby('Character')`: the distinct values of the
`'Character'` column sorted ascending (`groupby` defaults to `sort=True`;
Python compares strings lexicographically by code point, the linear order of
`List Char`). -/
def groupKeys (df : List FrequencyRecord) : List Word :=
  List.insertionSort (· ≤ ·) (df.map (fun r => r.character)).dedup

/-- The `'Frequency'` values of one character's group with the missing values
skipped, as pandas `Series.max`/`Series.min` default to `skipna=True`. -/
def presentFreqs (df : List FrequencyRecord) (c : Word) : List Nat :=
  (df.filter (fun r => r.character = c)).filterMap (fun r => r.frequency)

/-- Pandas `Series.max()` (`skipna=True`): `none` (NaN) on an all-missing
series, else the greatest present value. -/
def aggMax : List Nat → Option Nat
  | [] => none
  | v :: vs => some (vs.foldl Nat.max v)

/-- Pandas `Series.min()` (`skipna=True`). -/
def aggMin : List Nat → Option Nat
  | [] => none
  | v :: vs => some (vs.foldl Nat.min v)

/-- The aggregated `lambda x: x.max() - x.min()` for one character's group:
`none` (NaN) when the character's frequency is missing in every row. -/
def spread (df : List FrequencyRecord) (c : Word) : Option Nat :=
  match aggMax (presentFreqs df c), aggMin (presentFreqs df c) with
  | some hi, some lo => some (hi - lo)
  | _, _ => none

/-- `calculate_change_in_frequency`:
`df.groupby('Character')['Frequency'].agg(lambda x: x.max() - x.min())`, a
series indexed by the sorted distinct characters. -/
def calculate_change_in_frequency (df : List FrequencyRecord) :
    List (Word × Option Nat) :=
  (groupKeys df).map (fun c => (c, spread df c))

/-- Comparison modelling `Series.nlargest` with its default `keep='first'`:
larger value first, equal values in series position order. -/
def nlRel (p q : Nat × (Word × Nat)) : Prop :=
  q.2.2 < p.2.2 ∨ (p.2.2 = q.2.2 ∧ p.1 ≤ q.1)

instance : DecidableRel nlRel := fun p q => by unfold nlRel; infer_instance

/-- The entries of a keyed series that carry a present value: `nlargest`
drops missing values (NaN is never among the largest). -/
def presentPairs (s : List (Word × Option Nat)) : List (Word × Nat) :=
  s.filterMap (fun p => p.2.map (fun v => (p.1, v)))

/-- `s.nlargest(n).index.tolist()` for a keyed series `s`: missing values are
dropped, the remaining entries are ordered by value descending with ties kept
in series position order (`keep='first'`), and the keys of the first `n`
entries are returned.  The position is made explicit with `enum` so that the
comparison is a total order and no appeal to sort stability is needed. -/
def nlargest (n : Nat) (s : List (Word × Option Nat)) : List Word :=
  ((List.insertionSort nlRel (presentPairs s).enum).take n).map (fun e => e.2.1)

/-- `filter_top_characters`: keep the rows of the characters selected by
`calculate_change_in_frequency(df).nlargest(top_n)`. -/
def filter_top_characters (df : List FrequencyRecord) (top_n : Nat := 10) :
    List FrequencyRecord :=
  let top_characters := nlargest top_n (calculate_change_in_frequency df)
  df.filter (fun r => r.character ∈ top_characters)

/-- `filtered_df.groupby('Character')['Frequency'].max()` for one character. -/
def max_appearance (df : List FrequencyRecord) (c : Word) : Option Nat :=
  aggMax (presentFreqs df c)

/-- Descending order with missing values last, modelling
`sort_values(ascending=False)` (whose default `na_position` is `'last'`). -/
def optGe (a b : Option Nat) : Prop :=
  match a, b with
  | _, none => True
  | none, some _ => False
  | some x, some y => y ≤ x

instance : DecidableRel optGe := fun a b =>
  match a, b with
  | some _, none => isTrue trivial
  | none, none => isTrue trivial
  | none, some _ => isFalse fun h => h
  | some x, some y => inferInstanceAs (Decidable (y ≤ x))

/-- The pair order behind `max_appearance.sort_values(ascending=False)`. -/
def maRel (p q : Word × Option Nat) : Prop := optGe p.2 q.2

instance : DecidableRel maRel := fun p q =>
  inferInstanceAs (Decidable (optGe p.2 q.2))

/-- `sorted_characters` in `order_characters_by_max_appearance`:
`max_appearance.sort_values(ascending=False).index.tolist()`.  Pandas's
default `kind='quicksort'` leaves the relative order of tied keys
implementation-defined; this model resolves ties stably, i.e. in the sorted
group-key order.  The theorems below use only tie-independent consequences. -/
def sorted_characters (df : List FrequencyRecord) : List Word :=
  (List.insertionSort maRel
    ((groupKeys df).map (fun c => (c, max_appearance df c)))).map (fun p => p.1)

/-- `order_characters_by_max_appearance`:
`filtered_df.set_index('Character').loc[sorted_characters].reset_index()` —
for each character of `sorted_characters` in turn, all of that character's
rows in their original order. -/
def order_characters_by_max_appearance (df : List FrequencyRecord) :
    List FrequencyRecord :=
  (sorted_characters df).flatMap (fun c => df.filter (fun r => r.character = c))

/-- Restatement of claim C10's variant in the claim's words: keep the
alphabetic tokens and only lowercase them, with no possessive stripping. -/
def count_word_frequencies_lower (text : List Char) (target_words : List Word) :
    List (Word × Nat) :=
  let words := word_tokenize text
  let lowered := (words.filter pyIsAlpha).map (fun w => w.map Char.toLower)
  target_words.map (fun word => (word, lowered.count word))

/-! ## Totality and transitivity of the sorting relations -/

instance : IsTrans (Nat × (Word × Nat)) nlRel :=
  ⟨by intro a b c h1 h2; unfold nlRel at *; omega⟩

instance : IsTotal (Nat × (Word × Nat)) nlRel :=
  ⟨by intro a b; unfold nlRel; omega⟩

theorem optGe_trans : ∀ {a b c : Option Nat}, optGe a b → optGe b c → optGe a c := by
  intro a b c h1 h2
  cases a <;> cases b <;> cases c <;> simp_all [optGe] <;> omega

theorem optGe_total : ∀ a b : Option Nat, optGe a b ∨ optGe b a := by
  intro a b
  cases a <;> cases b <;> simp_all [optGe] <;> omega

instance : IsTrans (Word × Option Nat) maRel :=
  ⟨fun _ _ _ h1 h2 => optGe_trans h1 h2⟩

instance : IsTotal (Word × Option Nat) maRel :=
  ⟨fun p q => optGe_total p.2 q.2⟩

/-! ## Normalization (claims C2 and C10) -/

theorem normalize_word_append_marker (w : Word) :
    normalize_word (w ++ ['\'', 's']) = w.map Char.toLower := by
  simp only [normalize_word]
  split
  next rest heq =>
    have hr : w.reverse = rest := by simpa using heq
    subst hr
    simp
  next hne =>
    exact absurd (by simp : (w ++ ['\'', 's']).reverse = 's' :: '\'' :: w.reverse)
      (hne w.reverse)

theorem normalize_word_of_alpha (w : Word) (h : pyIsAlpha w = true) :
    normalize_word w = w.map Char.toLower := by
  have h2 : w.all Char.isAlpha = true := by
    have h' := h
    simp only [pyIsAlpha, Bool.and_eq_true] at h'
    exact h'.2
  simp only [normalize_word]
  split
  next rest heq =>
    exfalso
    have hmem : '\'' ∈ w := by
      have hm : '\'' ∈ w.reverse := by rw [heq]; simp
      simpa using hm
    exact absurd (List.all_eq_true.mp h2 _ hmem) (by decide)
  next => rfl

/-- C2 (counterexample): the trailing possessive marker is not removed
case-insensitively — a word ending in `'S` (uppercase S) is normalized
differently from the same word ending in `'s`: `normalize_word` leaves the
marker of `"Harry'S"` in place and yields `"harry's"`, not `"harry"`. -/
theorem C2_counterexample :
    normalize_word "Harry'S".toList ≠ normalize_word "Harry's".toList ∧
    normalize_word "Harry'S".toList = "harry's".toList := by
  decide

/-- C2 (amended): `normalize_word` removes a single trailing possessive
marker `'s` matched case-sensitively (an apostrophe followed by a lowercase
`s`) and lowercases the remainder; `"Harry's"`, `"harry"`, `"Harry"` and
`"HARRY"` all normalize to `"harry"`, but a word ending in `'S` (uppercase S)
keeps its marker: `"Harry'S"` normalizes to `"harry's"`. -/
theorem C2_normalize_word :
    (∀ w : Word, normalize_word (w ++ ['\'', 's']) = w.map Char.toLower) ∧
    normalize_word "Harry's".toList = "harry".toList ∧
    normalize_word "harry".toList = "harry".toList ∧
    normalize_word "Harry".toList = "harry".toList ∧
    normalize_word "HARRY".toList = "harry".toList ∧
    normalize_word "Harry'S".toList = "harry's".toList :=
  ⟨normalize_word_append_marker, by decide, by decide, by decide, by decide, by decide⟩

/-- C10: every token kept by `count_word_frequencies` is purely alphabetic,
so it contains no apostrophe and the possessive-stripping step of
`normalize_word` is the identity on it: `count_word_frequencies` is
extensionally equal to the variant that only lowercases the kept alphabetic
tokens. -/
theorem C10_normalize_identity (text : List Char) (target_words : List Word) :
    count_word_frequencies text target_words
      = count_word_frequencies_lower text target_words := by
  have hmap : ((word_tokenize text).filter pyIsAlpha).map normalize_word
      = ((word_tokenize text).filter pyIsAlpha).map (fun w => w.map Char.toLower) := by
    apply List.map_congr_left
    intro w hw
    exact normalize_word_of_alpha w (List.of_mem_filter hw)
  simp only [count_word_frequencies, count_word_frequencies_lower, hmap]

/-! ## End-to-end scenario (claim C3) -/

/-- The two-novel file system of the spec's end-to-end scenario. -/
def fsC3 : FileSystem := fun p =>
  if p = "novel1.txt".toList then some "Harry ran. Harry's wand glowed.".toList
  else if p = "novel2.txt".toList then some "Ron and Harry talked.".toList
  else none

/-- C3: on the two novel texts `"Harry ran. Harry's wand glowed."` and
`"Ron and Harry talked."` with vocabulary `["harry", "ron"]`, the pipeline
through `prepare_plot_data` produces exactly the four records
(novel1, Harry, 2), (novel1, Ron, absent), (novel2, Harry, 1),
(novel2, Ron, 1), in that order. -/
theorem C3_end_to_end :
    prepare_plot_data fsC3 ["novel1.txt".toList, "novel2.txt".toList]
      ["novel1".toList, "novel2".toList] ["harry".toList, "ron".toList] =
    [⟨"novel1".toList, "Harry".toList, some 2⟩,
     ⟨"novel1".toList, "Ron".toList, none⟩,
     ⟨"novel2".toList, "Harry".toList, some 1⟩,
     ⟨"novel2".toList, "Ron".toList, some 1⟩] := by
  decide

/-! ## Table construction (claims C4, C5, C6) -/

theorem flatMap_congr {α β : Type} {l : List α} {f g : α → List β}
    (h : ∀ a ∈ l, f a = g a) : l.flatMap f = l.flatMap g := by
  induction l with
  | nil => rfl
  | cons x xs ih =>
    simp only [List.flatMap_cons]
    rw [h x (List.mem_cons_self x xs), ih (fun a ha => h a (List.mem_cons_of_mem x ha))]

theorem prepare_single (fs : FileSystem) (pt : Word × Word) (target_words : List Word) :
    prepare_plot_data fs [pt.1] [pt.2] target_words = novel_rows fs pt target_words := by
  obtain ⟨a, b⟩ := pt
  simp [prepare_plot_data]

/-- C4: each record built by `prepare_plot_data` carries the exact count `k`
of its vocabulary word in its novel when `k > 0`, and an absent value
(`none`, not zero) when the count is 0; absent records are dropped by the
renderer's `dropna`, so a character with 0 occurrences in a novel is never a
plotted point for that novel. -/
theorem C4_zero_absent (fs : FileSystem) (novel_paths novel_titles : List Word)
    (target_words : List Word) (r : FrequencyRecord) :
    (r ∈ prepare_plot_data fs novel_paths novel_titles target_words →
      ∃ pt ∈ novel_paths.zip novel_titles, ∃ w ∈ target_words,
        r.novel = pt.2 ∧ r.character = capitalize w ∧
        ((0 < ((process_novel fs pt.1 target_words).lookup w).getD 0 ∧
            r.frequency = some (((process_novel fs pt.1 target_words).lookup w).getD 0)) ∨
         (((process_novel fs pt.1 target_words).lookup w).getD 0 = 0 ∧
            r.frequency = none))) ∧
    (r.frequency = none →
      r ∉ dropna_frequency (prepare_plot_data fs novel_paths novel_titles target_words)) := by
  constructor
  · intro hr
    rw [prepare_plot_data, List.mem_flatMap] at hr
    obtain ⟨pt, hpt, hrin⟩ := hr
    simp only [novel_rows, List.mem_map] at hrin
    obtain ⟨w, hw, hrec⟩ := hrin
    refine ⟨pt, hpt, w, hw, ?_, ?_, ?_⟩
    · rw [← hrec]
    · rw [← hrec]
    · by_cases h0 : 0 < ((process_novel fs pt.1 target_words).lookup w).getD 0
      · left
        refine ⟨h0, ?_⟩
        rw [← hrec]
        simp [h0]
      · right
        have hz : ((process_novel fs pt.1 target_words).lookup w).getD 0 = 0 := by omega
        refine ⟨hz, ?_⟩
        rw [← hrec]
        simp [hz]
  · intro hnone hmem
    have h2 := (List.mem_filter.mp hmem).2
    rw [hnone] at h2
    simp at h2

/-- C5: a failing novel read does not abort the run: each novel's rows
depend only on that novel's own file — the table is the concatenation of
what every novel yields when processed alone — and for a novel whose read
fails a diagnostic is emitted and every record generated for that novel
title carries an absent frequency. -/
theorem C5_missing_file (fs : FileSystem) (novel_paths novel_titles : List Word)
    (target_words : List Word) (p t : Word) :
    prepare_plot_data fs novel_paths novel_titles target_words
      = (novel_paths.zip novel_titles).flatMap
          (fun pt => prepare_plot_data fs [pt.1] [pt.2] target_words) ∧
    (fs p = none →
      process_novel_logs fs p = [p] ∧
      ∀ r ∈ prepare_plot_data fs [p] [t] target_words, r.frequency = none) := by
  constructor
  · rw [prepare_plot_data]
    exact (flatMap_congr (fun pt _ => (prepare_single fs pt target_words).symm))
  · intro hp
    constructor
    · simp [process_novel_logs, hp]
    · intro r hr
      rw [prepare_single fs (p, t) target_words] at hr
      simp only [novel_rows, process_novel, hp, List.mem_map] at hr
      obtain ⟨w, hw, hrec⟩ := hr
      rw [← hrec]
      simp

theorem getElem?_flatMap_const_length {α β : Type} (l : List α) (f : α → List β)
    (L : Nat) (hL : ∀ a, (f a).length = L) (i j : Nat) (hi : i < l.length)
    (hj : j < L) : (l.flatMap f)[i * L + j]? = (f (l.get ⟨i, hi⟩))[j]? := by
  induction l generalizing i with
  | nil => simp at hi
  | cons a as ih =>
    cases i with
    | zero =>
      simp only [List.flatMap_cons]
      rw [List.getElem?_append, if_pos (by rw [hL a]; omega)]
      simp
    | succ i' =>
      simp only [List.flatMap_cons]
      have harith : (i' + 1) * L + j = L + (i' * L + j) := by ring
      rw [List.getElem?_append, if_neg (by rw [hL a, harith]; omega)]
      rw [hL a, harith, Nat.add_sub_cancel_left]
      have hi' : i' < as.length := by simpa using hi
      rw [ih i' hi']
      simp

/-- C6: for equally long path and title lists the table has exactly
|novels| × |vocabulary| records, one per (novel, vocabulary word) pair, in
the order novels outer, vocabulary inner: the record at position
i·|vocabulary| + j belongs to novel i and vocabulary word j. -/
theorem C6_table_shape (fs : FileSystem) (novel_paths novel_titles : List Word)
    (target_words : List Word) :
    (novel_paths.length = novel_titles.length →
      (prepare_plot_data fs novel_paths novel_titles target_words).length
        = novel_titles.length * target_words.length) ∧
    (∀ i j (hi : i < (novel_paths.zip novel_titles).length)
        (hj : j < target_words.length),
      ∃ r : FrequencyRecord,
        (prepare_plot_data fs novel_paths novel_titles
            target_words)[i * target_words.length + j]? = some r ∧
        r.novel = ((novel_paths.zip novel_titles).get ⟨i, hi⟩).2 ∧
        r.character = capitalize (target_words.get ⟨j, hj⟩)) := by
  constructor
  · intro hlen
    rw [prepare_plot_data, List.length_flatMap]
    have hall : ∀ pt ∈ novel_paths.zip novel_titles,
        (List.length ∘ fun pt => novel_rows fs pt target_words) pt
          = (fun _ => target_words.length) pt := by
      intro pt _
      simp [novel_rows]
    rw [List.map_congr_left hall, List.map_const', List.sum_replicate,
      smul_eq_mul, List.length_zip, hlen, Nat.min_self]
  · intro i j hi hj
    rw [prepare_plot_data]
    rw [getElem?_flatMap_const_length (novel_paths.zip novel_titles)
      (fun pt => novel_rows fs pt target_words) target_words.length
      (fun pt => by simp [novel_rows]) i j hi hj]
    simp only [novel_rows]
    rw [List.getElem?_map, List.getElem?_eq_getElem hj, Option.map_some']
    exact ⟨_, rfl, rfl, rfl⟩

/-! ## Selection (claims C8, C9, C1) -/

theorem mem_presentPairs {s : List (Word × Option Nat)} {c : Word} {v : Nat} :
    (c, v) ∈ presentPairs s ↔ (c, some v) ∈ s := by
  unfold presentPairs
  rw [List.mem_filterMap]
  constructor
  · rintro ⟨a, ha, hav⟩
    rw [Option.map_eq_some'] at hav
    obtain ⟨x, ha2, hx⟩ := hav
    obtain ⟨hx1, hx2⟩ := Prod.mk.injEq .. |>.mp hx
    obtain ⟨a1, a2⟩ := a
    simp only at hx1 ha2
    rw [hx1, ha2, hx2] at ha
    exact ha
  · intro h
    exact ⟨(c, some v), h, rfl⟩

theorem snd_mem_of_mem_enum {α : Type} {l : List α} {i : Nat} {x : α}
    (h : (i, x) ∈ l.enum) : x ∈ l := by
  rw [List.mem_enum_iff_getElem?] at h
  obtain ⟨hi, he⟩ := List.getElem?_eq_some.mp h
  have hi' : i < l.length := hi
  have he' : l.get ⟨i, hi'⟩ = x := he
  exact he' ▸ List.get_mem l i hi'

theorem exists_enum_of_mem {α : Type} {l : List α} {x : α} (h : x ∈ l) :
    ∃ i, (i, x) ∈ l.enum := by
  rw [List.mem_iff_getElem] at h
  obtain ⟨i, hi, hx⟩ := h
  exact ⟨i, List.mem_enum_iff_getElem?.mpr (by rw [List.getElem?_eq_getElem hi, hx])⟩

theorem eq_of_enum_same {α : Type} {l : List α} {i : Nat} {x y : α}
    (hx : (i, x) ∈ l.enum) (hy : (i, y) ∈ l.enum) : x = y := by
  rw [List.mem_enum_iff_getElem?] at hx hy
  exact Option.some.inj (hx.symm.trans hy)

theorem mem_nlargest {n : Nat} {s : List (Word × Option Nat)} {c : Word}
    (h : c ∈ nlargest n s) : ∃ v, (c, v) ∈ presentPairs s := by
  unfold nlargest at h
  rw [List.mem_map] at h
  obtain ⟨e, he, hec⟩ := h
  obtain ⟨i, k, v⟩ := e
  dsimp only at hec
  subst hec
  have he2 : (i, (k, v)) ∈ List.insertionSort nlRel (presentPairs s).enum :=
    List.mem_of_mem_take he
  rw [List.mem_insertionSort] at he2
  exact ⟨v, snd_mem_of_mem_enum he2⟩

theorem spread_eq_of_mem_calc {df : List FrequencyRecord} {c : Word}
    {v : Option Nat} (h : (c, v) ∈ calculate_change_in_frequency df) :
    spread df c = v := by
  unfold calculate_change_in_frequency at h
  rw [List.mem_map] at h
  obtain ⟨k, hk, hkv⟩ := h
  obtain ⟨h1, h2⟩ := Prod.mk.injEq .. |>.mp hkv
  rw [← h1]
  exact h2

theorem spread_isSome_of_mem_nlargest {df : List FrequencyRecord} {n : Nat}
    {c : Word} (h : c ∈ nlargest n (calculate_change_in_frequency df)) :
    ∃ v, spread df c = some v := by
  obtain ⟨v, hv⟩ := mem_nlargest h
  exact ⟨v, spread_eq_of_mem_calc (mem_presentPairs.mp hv)⟩

theorem groupKeys_nodup (df : List FrequencyRecord) : (groupKeys df).Nodup :=
  ((List.perm_insertionSort _ _).nodup_iff).mpr (List.nodup_dedup _)

theorem groupKeys_sorted (df : List FrequencyRecord) :
    List.Sorted (· ≤ ·) (groupKeys df) :=
  List.sorted_insertionSort _ _

theorem pairwise_lt_groupKeys (df : List FrequencyRecord) :
    List.Pairwise (· < ·) (groupKeys df) :=
  ((groupKeys_sorted df).and (groupKeys_nodup df)).imp
    (fun h => lt_of_le_of_ne h.1 h.2)

theorem pairwise_keys_calc (df : List FrequencyRecord) :
    List.Pairwise (fun a b : Word × Option Nat => a.1 < b.1)
      (calculate_change_in_frequency df) := by
  unfold calculate_change_in_frequency
  rw [List.pairwise_map]
  exact pairwise_lt_groupKeys df

theorem pairwise_keys_presentPairs {s : List (Word × Option Nat)}
    (h : List.Pairwise (fun a b => a.1 < b.1) s) :
    List.Pairwise (fun a b : Word × Nat => a.1 < b.1) (presentPairs s) := by
  unfold presentPairs
  refine List.Pairwise.filterMap _ ?_ h
  intro a a' hlt b hb b' hb'
  rw [Option.mem_def, Option.map_eq_some'] at hb hb'
  obtain ⟨x, _, hbx⟩ := hb
  obtain ⟨y, _, hby⟩ := hb'
  rw [← hbx, ← hby]
  simpa using hlt

theorem pairwise_take_drop {α : Type} {r : α → α → Prop} {l : List α}
    (h : List.Pairwise r l) (n : Nat) {a b : α} (ha : a ∈ l.take n)
    (hb : b ∈ l.drop n) : r a b := by
  rw [← List.take_append_drop n l, List.pairwise_append] at h
  exact h.2.2 a ha b hb

theorem key_lt_of_enum_lt {l : List (Word × Nat)}
    (hp : List.Pairwise (fun a b => a.1 < b.1) l) {i j : Nat} {x y : Word × Nat}
    (hx : (i, x) ∈ l.enum) (hy : (j, y) ∈ l.enum) (hij : i < j) : x.1 < y.1 := by
  rw [List.mem_enum_iff_getElem?] at hx hy
  obtain ⟨hi, hxe⟩ := List.getElem?_eq_some.mp hx
  obtain ⟨hj, hye⟩ := List.getElem?_eq_some.mp hy
  have hi' : i < l.length := hi
  have hj' : j < l.length := hj
  have hxe' : l.get ⟨i, hi'⟩ = x := hxe
  have hye' : l.get ⟨j, hj'⟩ = y := hye
  rw [List.pairwise_iff_get] at hp
  have := hp ⟨i, hi'⟩ ⟨j, hj'⟩ hij
  rw [hxe', hye'] at this
  exact this

/-- C8: `filter_top_characters` returns exactly the input records whose
character is in the selected top-N set, unmodified and in their original
relative order: the output is a subsequence of the input, and every record
occurs in the output exactly as often as in the input when its character is
selected, and not at all otherwise. -/
theorem C8_filter_records (df : List FrequencyRecord) (top_n : Nat) :
    (filter_top_characters df top_n).Sublist df ∧
    (∀ r : FrequencyRecord,
      (filter_top_characters df top_n).count r =
        if r.character ∈ nlargest top_n (calculate_change_in_frequency df)
        then df.count r else 0) := by
  constructor
  · exact List.filter_sublist df
  · intro r
    simp only [filter_top_characters]
    by_cases h : r.character ∈ nlargest top_n (calculate_change_in_frequency df)
    · rw [if_pos h]
      exact List.count_filter (by simpa using h)
    · rw [if_neg h]
      refine List.count_eq_zero.mpr ?_
      intro hmem
      exact h (by simpa using (List.mem_filter.mp hmem).2)

/-- C9: a character whose frequency is absent in every record of the table
has an undefined (NaN) spread and is never selected by the `nlargest` step of
`filter_top_characters`, for any N; a character with exactly one present
value has spread 0. -/
theorem C9_absent_spread (df : List FrequencyRecord) (n : Nat) (c : Word) :
    ((∀ r ∈ df, r.character = c → r.frequency = none) →
      c ∉ nlargest n (calculate_change_in_frequency df)) ∧
    (∀ v : Nat, presentFreqs df c = [v] → spread df c = some 0) := by
  constructor
  · intro hall hmem
    obtain ⟨v, hv⟩ := spread_isSome_of_mem_nlargest hmem
    have hnil : presentFreqs df c = [] := by
      unfold presentFreqs
      rw [List.filterMap_eq_nil_iff]
      intro r hr
      exact hall r (List.mem_of_mem_filter hr)
        (by simpa using (List.mem_filter.mp hr).2)
    have hnone : spread df c = none := by
      simp [spread, hnil, aggMax, aggMin]
    rw [hnone] at hv
    simp at hv
  · intro v hone
    simp [spread, hone, aggMax, aggMin]

/-! ## Ordering (claim C7) -/

/-- Two characters in one novel with the same maximum frequency. -/
def dfC7 : List FrequencyRecord :=
  [⟨"n1".toList, "A".toList, some 5⟩, ⟨"n1".toList, "B".toList, some 5⟩]

/-- C7 (counterexample): with two selected characters of equal maximum
frequency 5, the character order produced by
`order_characters_by_max_appearance` cannot be strictly descending by
maximum frequency. -/
theorem C7_counterexample :
    max_appearance dfC7 "A".toList = some 5 ∧
    max_appearance dfC7 "B".toList = some 5 ∧
    sorted_characters dfC7 = ["A".toList, "B".toList] ∧
    ¬ List.Pairwise (fun c d =>
        (max_appearance dfC7 d).getD 0 < (max_appearance dfC7 c).getD 0)
      (sorted_characters dfC7) := by
  decide

/-- C7 (amended): the character order produced by
`order_characters_by_max_appearance` is descending (non-increasing) by each
character's maximum present frequency, with characters that have no present
value last and tied characters adjacent in an implementation-defined order;
it is a duplicate-free permutation of the distinct characters of the input,
and the output records are grouped contiguously per character in that order,
each group keeping its original relative order. -/
theorem C7_order (df : List FrequencyRecord) :
    List.Pairwise (fun c d => optGe (max_appearance df c) (max_appearance df d))
      (sorted_characters df) ∧
    (sorted_characters df).Perm (groupKeys df) ∧
    (sorted_characters df).Nodup ∧
    order_characters_by_max_appearance df
      = (sorted_characters df).flatMap (fun c => df.filter (fun r => r.character = c)) := by
  have hperm2 : (sorted_characters df).Perm (groupKeys df) := by
    unfold sorted_characters
    have hperm := (List.perm_insertionSort maRel
      ((groupKeys df).map (fun c => (c, max_appearance df c)))).map
        (fun p : Word × Option Nat => p.1)
    refine hperm.trans ?_
    have hmapeq : ((groupKeys df).map (fun c => (c, max_appearance df c))).map
        (fun p : Word × Option Nat => p.1) = groupKeys df := by
      rw [List.map_map]
      have hcomp : ((fun p : Word × Option Nat => p.1)
          ∘ fun c => (c, max_appearance df c)) = fun c : Word => c := rfl
      rw [hcomp, List.map_id']
    rw [hmapeq]
  refine ⟨?_, hperm2, hperm2.nodup_iff.mpr (groupKeys_nodup df), rfl⟩
  · have hs : List.Pairwise maRel
        (List.insertionSort maRel
          ((groupKeys df).map (fun c => (c, max_appearance df c)))) :=
      List.sorted_insertionSort maRel _
    have hmem : ∀ p ∈ List.insertionSort maRel
        ((groupKeys df).map (fun c => (c, max_appearance df c))),
        p.2 = max_appearance df p.1 := by
      intro p hp
      rw [List.mem_insertionSort, List.mem_map] at hp
      obtain ⟨k, _, hk⟩ := hp
      rw [← hk]
    unfold sorted_characters
    rw [List.pairwise_map]
    refine hs.imp_of_mem ?_
    intro a b ha hb hab
    have h1 := hmem a ha
    have h2 := hmem b hb
    unfold maRel at hab
    rw [h1, h2] at hab
    exact hab

/-! ## Top-N selection (claim C1) -/

theorem length_presentPairs_map (l : List Word) (f : Word → Option Nat) :
    (presentPairs (l.map (fun c => (c, f c)))).length
      = (l.filter (fun c => (f c).isSome)).length := by
  induction l with
  | nil => rfl
  | cons c cs ih =>
    rw [List.map_cons]
    unfold presentPairs at ih ⊢
    rw [List.filterMap_cons, List.filter_cons]
    cases hfc : f c with
    | none => simpa [hfc] using ih
    | some v => simpa [hfc] using ih

theorem nodup_nlargest (df : List FrequencyRecord) (n : Nat) :
    (nlargest n (calculate_change_in_frequency df)).Nodup := by
  unfold nlargest
  have hkeys : List.Pairwise (fun a b : Word × Nat => a.1 ≠ b.1)
      (presentPairs (calculate_change_in_frequency df)) :=
    (pairwise_keys_presentPairs (pairwise_keys_calc df)).imp (fun h => ne_of_lt h)
  have hpres : (List.map (fun p : Word × Nat => p.1)
      (presentPairs (calculate_change_in_frequency df))).Nodup :=
    List.pairwise_map.mpr hkeys
  have henum : (List.map (fun e : Nat × (Word × Nat) => e.2.1)
      (presentPairs (calculate_change_in_frequency df)).enum).Nodup := by
    have h1 : List.map (fun e : Nat × (Word × Nat) => e.2.1)
        (presentPairs (calculate_change_in_frequency df)).enum
        = List.map (fun p : Word × Nat => p.1)
            (List.map Prod.snd (presentPairs (calculate_change_in_frequency df)).enum) := by
      rw [List.map_map]
      rfl
    rw [h1, List.enum_map_snd]
    exact hpres
  have hsorted : (List.map (fun e : Nat × (Word × Nat) => e.2.1)
      (List.insertionSort nlRel
        (presentPairs (calculate_change_in_frequency df)).enum)).Nodup := by
    refine (List.Perm.nodup_iff ?_).mpr henum
    exact (List.perm_insertionSort nlRel _).map _
  exact ((List.take_sublist n _).map _).nodup hsorted

/-- A table where Zed appears before Ann, with equal spreads. -/
def dfC1 : List FrequencyRecord :=
  [⟨"n1".toList, "Zed".toList, some 5⟩, ⟨"n1".toList, "Ann".toList, some 3⟩]

/-- C1 (counterexample): Zed appears before Ann in the table and both have
spread 0, yet `filter_top_characters` with N = 1 keeps Ann — the tie is
broken by character name (pandas sorts the group keys and `nlargest` keeps
the first of equals), not by stable input order, which would keep Zed. -/
theorem C1_counterexample :
    spread dfC1 "Zed".toList = spread dfC1 "Ann".toList ∧
    dfC1.map (fun r => r.character) = ["Zed".toList, "Ann".toList] ∧
    filter_top_characters dfC1 1 = [⟨"n1".toList, "Ann".toList, some 3⟩] ∧
    (⟨"n1".toList, "Zed".toList, some 5⟩ : FrequencyRecord)
      ∉ filter_top_characters dfC1 1 := by
  decide

/-- C1 (amended): `filter_top_characters` keeps exactly the records of the
`top_n` characters with the largest spread (max minus min over the novels
where the character has a present value): every selected character has a
defined spread, the selection is duplicate-free with exactly
`min top_n (number of characters with a defined spread)` characters in it,
no rejected character has a larger spread
than a selected one — and on equal spreads the selected character's name is
lexicographically smaller (pandas sorts the group keys and `nlargest` keeps
the first of equals), so ties are broken by ascending character name, not by
stable input order — and the output consists of exactly the input records
whose character is selected. -/
theorem C1_top_selection (df : List FrequencyRecord) (n : Nat) :
    (∀ c ∈ nlargest n (calculate_change_in_frequency df),
      ∃ v, spread df c = some v) ∧
    (nlargest n (calculate_change_in_frequency df)).Nodup ∧
    (nlargest n (calculate_change_in_frequency df)).length
      = min n ((groupKeys df).filter (fun c => (spread df c).isSome)).length ∧
    (∀ c ∈ nlargest n (calculate_change_in_frequency df),
      ∀ d ∈ groupKeys df, d ∉ nlargest n (calculate_change_in_frequency df) →
      ∀ vc vd, spread df c = some vc → spread df d = some vd →
        vd < vc ∨ (vd = vc ∧ c < d)) ∧
    filter_top_characters df n
      = df.filter (fun r =>
          r.character ∈ nlargest n (calculate_change_in_frequency df)) := by
  refine ⟨?_, nodup_nlargest df n, ?_, ?_, rfl⟩
  · intro c hc
    exact spread_isSome_of_mem_nlargest hc
  · unfold nlargest
    rw [List.length_map, List.length_take, List.length_insertionSort,
      List.enum_length, calculate_change_in_frequency, length_presentPairs_map]
  · intro c hc d hd hdnot vc vd hvc hvd
    set sortedE := List.insertionSort nlRel
      (presentPairs (calculate_change_in_frequency df)).enum with hsE
    have hdp : (d, vd) ∈ presentPairs (calculate_change_in_frequency df) := by
      rw [mem_presentPairs]
      unfold calculate_change_in_frequency
      rw [List.mem_map]
      exact ⟨d, hd, by rw [hvd]⟩
    obtain ⟨i, hie⟩ := exists_enum_of_mem hdp
    have hdsort : (i, (d, vd)) ∈ sortedE := by
      rw [hsE, List.mem_insertionSort]
      exact hie
    have hdnotake : (i, (d, vd)) ∉ sortedE.take n := by
      intro hmem
      apply hdnot
      unfold nlargest
      rw [List.mem_map]
      exact ⟨(i, (d, vd)), hmem, rfl⟩
    have hddrop : (i, (d, vd)) ∈ sortedE.drop n := by
      have h2 := hdsort
      rw [← List.take_append_drop n sortedE, List.mem_append] at h2
      exact h2.resolve_left hdnotake
    have hc2 := hc
    unfold nlargest at hc2
    rw [List.mem_map] at hc2
    obtain ⟨⟨j, c', vc'⟩, he, hec⟩ := hc2
    dsimp only at hec
    subst hec
    have hesort : (j, (c', vc')) ∈ sortedE := List.mem_of_mem_take he
    have heenum : (j, (c', vc')) ∈
        (presentPairs (calculate_change_in_frequency df)).enum := by
      rw [hsE, List.mem_insertionSort] at hesort
      exact hesort
    have hcp : (c', vc') ∈ presentPairs (calculate_change_in_frequency df) :=
      snd_mem_of_mem_enum heenum
    have hspread : spread df c' = some vc' :=
      spread_eq_of_mem_calc (mem_presentPairs.mp hcp)
    have hveq : vc' = vc := Option.some.inj (hspread.symm.trans hvc)
    subst hveq
    have hsorted : List.Pairwise nlRel sortedE :=
      List.sorted_insertionSort nlRel _
    have hrel : nlRel (j, (c', vc')) (i, (d, vd)) :=
      pairwise_take_drop hsorted n he hddrop
    rcases hrel with hlt | ⟨heq, hle⟩
    · left
      exact hlt
    · right
      refine ⟨heq.symm, ?_⟩
      have hne : c' ≠ d := fun h => hdnot (h ▸ hc)
      have hji : j ≠ i := by
        intro h
        apply hne
        have h1 : (i, (c', vc')) ∈
            (presentPairs (calculate_change_in_frequency df)).enum := h ▸ heenum
        exact congrArg Prod.fst (eq_of_enum_same h1 hie)
      exact key_lt_of_enum_lt (pairwise_keys_presentPairs (pairwise_keys_calc df))
        heenum hie (lt_of_le_of_ne hle hji)
